import Mathlib

/-!
Shallow embedding of `src/tic_tac_toe.py` (a tic-tac-toe game with a
recursive negamax scorer) and proofs of the specification's claims.

The Python data is translated value-for-value:

* a Python `dict` (insertion ordered, unique keys) becomes an association
  list `List (α × β)`; `pyGet`/`pyMem`/`pySet` embed `d[k]`, `k in d` and
  `d[k] = v` (assignment to an existing key updates the entry in place,
  assignment to a fresh key appends);
* the player strings `'X'` / `'O'` become the inductive `Player`;
* a value of the `cells_owned` dict is either the original cell number
  (the board starts as `{1: 1, ..., 9: 9}`) or a player mark, embedded by
  `CellVal`;
* `TicTacToeGame` holds no data of its own beyond its `current_state`
  (its methods `is_over` / `is_winner` read only `self.current_state` and
  the constant `winning_combo`), so its methods are embedded as functions
  of the state;
* Python functions that can raise (`max` of an empty collection inside
  `get_best_moves_rec`) return `Option`.
-/

inductive Player where
  | X : Player
  | O : Player
deriving DecidableEq

/-- A value stored in the `cells_owned` dict: initially the cell's own
number (`{1: 1, ..., 9: 9}`), replaced by the mark of the player who takes
the cell. -/
inductive CellVal where
  | num : Nat → CellVal
  | mark : Player → CellVal
deriving DecidableEq

/-- Embedding of Python `k in d` for a dict `d`. -/
def pyMem {α β : Type} [DecidableEq α] (d : List (α × β)) (k : α) : Bool :=
  d.any (fun kv => decide (kv.1 = k))

/-- Embedding of Python `d[k]` for a dict `d` (the first entry with key
`k`, if any). -/
def pyGet {α β : Type} [DecidableEq α] : List (α × β) → α → Option β
  | [], _ => none
  | kv :: rest, k => if kv.1 = k then some kv.2 else pyGet rest k

/-- Embedding of Python `d[k] = v`: an existing key keeps its position and
gets the new value, a fresh key is appended at the end. -/
def pySet {α β : Type} [DecidableEq α] (d : List (α × β)) (k : α) (v : β) :
    List (α × β) :=
  if pyMem d k then d.map (fun kv => if kv.1 = k then (k, v) else kv)
  else d ++ [(k, v)]

/-- Source `copy_dict` (lines 9-17): `new_dict = {}`, then
`new_dict[key] = d[key]` for every key of `d` in order. -/
def copy_dict {α β : Type} [DecidableEq α] (d : List (α × β)) :
    List (α × β) :=
  d.foldl (fun nd kv => pySet nd kv.1 kv.2) []

/-- The game state (`TicTacToeState.__init__`, lines 178-186). -/
structure TicTacToeState where
  cells_owned : List (Nat × CellVal)
  cells_unowned : List Nat
  current_player : Player
deriving DecidableEq

/-- Source `TicTacToeGame.winning_combo` (lines 121-123). -/
def winning_combo : List (List Nat) :=
  [[1, 2, 3], [4, 5, 6], [7, 8, 9],
   [1, 4, 7], [2, 5, 8], [3, 6, 9],
   [1, 5, 9], [3, 5, 7]]

/-- The nine cells, in the order the initial state lists them. -/
def allCells : List Nat := [1, 2, 3, 4, 5, 6, 7, 8, 9]

/-- The initial `cells_owned` dict `{1: 1, ..., 9: 9}` built by
`TicTacToeGame.__init__` (lines 131-136). -/
def initial_owned : List (Nat × CellVal) :=
  [(1, CellVal.num 1), (2, CellVal.num 2), (3, CellVal.num 3),
   (4, CellVal.num 4), (5, CellVal.num 5), (6, CellVal.num 6),
   (7, CellVal.num 7), (8, CellVal.num 8), (9, CellVal.num 9)]

/-- Source `TicTacToeGame.__init__` (lines 125-136): the state the game
starts from, `'X'` moving first iff `x_first`. -/
def initial_state (x_first : Bool) : TicTacToeState :=
  { cells_owned := initial_owned
    cells_unowned := [1, 2, 3, 4, 5, 6, 7, 8, 9]
    current_player := if x_first then Player.X else Player.O }

/-- The cells the `is_over` loop collects for player `p`: the keys of
`cells_owned` whose value is the mark of `p`, in dict order (lines
145-149). `is_winner`'s comprehension (lines 164-166) builds the same
list. -/
def playerCells (s : TicTacToeState) (p : Player) : List Nat :=
  (s.cells_owned.filter (fun kv => decide (kv.2 = CellVal.mark p))).map
    Prod.fst

/-- Source `TicTacToeGame.is_over` (lines 138-157), reading
`self.current_state = s`: true when no cell is unowned, or some player's
collected cells contain a whole winning combo. -/
def is_over (s : TicTacToeState) : Bool :=
  if s.cells_unowned.length = 0 then true
  else
    [Player.X, Player.O].any (fun p =>
      winning_combo.any (fun combo =>
        combo.all (fun cell => (playerCells s p).contains cell)))

/-- Source `TicTacToeGame.is_winner` (lines 159-170), reading
`self.current_state = s`. -/
def is_winner (s : TicTacToeState) (p : Player) : Bool :=
  winning_combo.any (fun combo =>
    combo.all (fun cell => (playerCells s p).contains cell))

/-- Source `extract_winner` (lines 20-32): `'No one'` becomes `none`.
Note the source asks `is_winner('O')` before `is_winner('X')`. -/
def extract_winner (s : TicTacToeState) : Option Player :=
  if is_winner s Player.O then some Player.O
  else if is_winner s Player.X then some Player.X
  else none

/-- Source `TicTacToeState.get_possible_moves` (lines 188-196): empty when
the transient game view says the state is over, otherwise the
`cells_unowned` list itself. -/
def get_possible_moves (s : TicTacToeState) : List Nat :=
  if is_over s then [] else s.cells_unowned

/-- Source `TicTacToeState.is_valid_move` (lines 198-202). -/
def is_valid_move (s : TicTacToeState) (move : Nat) : Bool :=
  (get_possible_moves s).contains move

/-- The turn handover in `make_move` (line 212):
`'O' if self.current_player == 'X' else 'X'`. -/
def next_player (p : Player) : Player :=
  if p = Player.X then Player.O else Player.X

/-- The opponent as computed in `score_state_rec` (line 94):
`'X' if player == 'O' else 'O'`. -/
def opponent_of (p : Player) : Player :=
  if p = Player.O then Player.X else Player.O

/-- Source `TicTacToeState.make_move` (lines 204-213): filter the moved
cell out of `cells_unowned`, copy the `cells_owned` dict and write the
mover's mark at the cell, hand the turn over.  No validation of any kind
is performed. -/
def make_move (s : TicTacToeState) (move : Nat) : TicTacToeState :=
  { cells_owned :=
      pySet (copy_dict s.cells_owned) move (CellVal.mark s.current_player)
    cells_unowned := s.cells_unowned.filter (fun cell => decide (cell ≠ move))
    current_player := next_player s.current_player }

/-- The base case of `score_state_rec` (lines 97-106): 0 for a tie, 1 when
the extracted winner is the current player, -1 when it is the opponent. -/
def baseScore (s : TicTacToeState) : Int :=
  if extract_winner s = some s.current_player then 1
  else if extract_winner s = some (opponent_of s.current_player) then -1
  else 0

/-- Source `score_state_rec` (lines 86-114), with an explicit fuel
parameter so that the recursion is structural; `score_state_rec` below
instantiates the fuel with a sufficient bound, and
`score_fuel_eq_of_lt` shows any sufficient fuel gives the same value.
The non-terminal branch is Python's
`max(-1 * score_state_rec(state.make_move(m)) for m in moves)`:
`List.foldl max` of the first negated child score over the rest. -/
def score_fuel : Nat → TicTacToeState → Int
  | 0, _ => 0
  | fuel + 1, s =>
    match get_possible_moves s with
    | [] => baseScore s
    | m :: ms =>
      (ms.map (fun mv => -1 * score_fuel fuel (make_move s mv))).foldl max
        (-1 * score_fuel fuel (make_move s m))

/-- Source `score_state_rec` (lines 86-114): the Python recursion
terminates because every recursive call strictly shrinks
`cells_unowned`, so `cells_unowned.length + 1` fuel is always enough. -/
def score_state_rec (s : TicTacToeState) : Int :=
  score_fuel (s.cells_unowned.length + 1) s

/-- One iteration of the dict-building loop of `get_best_moves_rec`
(lines 72-77): `score_to_move[k] = [m]` when the key `k` is fresh, else
`score_to_move[k].append(m)`. -/
def addMove (d : List (Int × List Nat)) (k : Int) (m : Nat) :
    List (Int × List Nat) :=
  if pyMem d k = false then d ++ [(k, [m])]
  else d.map (fun kv => if kv.1 = k then (kv.1, kv.2 ++ [m]) else kv)

/-- Source `get_best_moves_rec` (lines 58-83): build the score-to-moves
dict over the possible moves, then look up the maximal key.  Python's
`max(score_to_move)` raises on an empty dict; here that is `none`
(the lookup of a present maximal key itself never fails). -/
def get_best_moves_rec (s : TicTacToeState) : Option (List Nat) :=
  let score_to_move :=
    (get_possible_moves s).foldl
      (fun d move => addMove d (-1 * score_state_rec (make_move s move)) move)
      []
  match (score_to_move.map Prod.fst).max? with
  | none => none
  | some k => pyGet score_to_move k

/-- Source `recursive_minimax` (lines 43-55): returns
`best_moves[random.randint(0, len(best_moves) - 1)]`; the random draw is
modelled by the index argument `idx`, and the failure of
`get_best_moves_rec` (or of `randint` on an empty pool) by `none`. -/
def recursive_minimax (s : TicTacToeState) (idx : Nat) : Option Nat :=
  match get_best_moves_rec s with
  | none => none
  | some best_moves => best_moves.get? idx

/-- The states reachable from the initial state (X first, as the spec's
scenarios assume) by applying legal moves. -/
inductive Reachable : TicTacToeState → Prop where
  | init : Reachable (initial_state true)
  | step : ∀ s m, Reachable s → m ∈ get_possible_moves s →
      Reachable (make_move s m)

/-! ### Helper lemmas about `List.foldl max`, the shape Python's `max`
takes on a non-empty list of scores. -/

theorem foldl_max_le_iff (l : List Int) (x v : Int) :
    l.foldl max x ≤ v ↔ x ≤ v ∧ ∀ y ∈ l, y ≤ v := by
  induction l generalizing x with
  | nil => simp
  | cons a t ih =>
    simp only [List.foldl_cons, ih, max_le_iff, List.mem_cons]
    constructor
    · rintro ⟨⟨hx, ha⟩, ht⟩
      exact ⟨hx, fun y hy => hy.elim (fun e => e ▸ ha) (ht y)⟩
    · rintro ⟨hx, h⟩
      exact ⟨⟨hx, h a (Or.inl rfl)⟩, fun y hy => h y (Or.inr hy)⟩

theorem le_foldl_max_left (l : List Int) (x : Int) : x ≤ l.foldl max x := by
  induction l generalizing x with
  | nil => simp
  | cons a t ih => exact le_trans (le_max_left x a) (ih (max x a))

theorem le_foldl_max_of_mem {l : List Int} {y : Int} (x : Int) (h : y ∈ l) :
    y ≤ l.foldl max x := by
  induction l generalizing x with
  | nil => cases h
  | cons a t ih =>
    rcases List.mem_cons.mp h with rfl | hy
    · exact le_trans (le_max_right x y) (le_foldl_max_left t (max x y))
    · exact ih (max x a) hy

theorem foldl_max_mem (l : List Int) (x : Int) : l.foldl max x ∈ x :: l := by
  induction l generalizing x with
  | nil => simp
  | cons a t ih =>
    rw [List.foldl_cons]
    rcases List.mem_cons.mp (ih (max x a)) with h | h
    · rcases max_choice x a with hx | hx
      · rw [h, hx]; exact List.mem_cons_self _ _
      · rw [h, hx]
        exact List.mem_cons.mpr (Or.inr (List.mem_cons_self _ _))
    · exact List.mem_cons.mpr (Or.inr (List.mem_cons.mpr (Or.inr h)))

/-! ### Termination structure of the scorer: every legal move strictly
shrinks `cells_unowned`, so the fuelled scorer stabilises. -/

theorem mem_possible_unowned {s : TicTacToeState} {m : Nat}
    (h : m ∈ get_possible_moves s) : m ∈ s.cells_unowned := by
  unfold get_possible_moves at h
  split at h
  · cases h
  · exact h

theorem possible_of_not_over {s : TicTacToeState}
    (h : get_possible_moves s ≠ []) :
    get_possible_moves s = s.cells_unowned := by
  unfold get_possible_moves at h ⊢
  by_cases hov : is_over s
  · rw [if_pos hov] at h; cases h rfl
  · rw [if_neg hov]

theorem length_filter_ne_lt {l : List Nat} {m : Nat} (h : m ∈ l) :
    (l.filter (fun c => decide (c ≠ m))).length < l.length := by
  induction l with
  | nil => cases h
  | cons a t ih =>
    by_cases hm : a = m
    · subst hm
      rw [List.filter_cons, if_neg (by simp)]
      exact Nat.lt_succ_of_le (List.length_filter_le _ t)
    · rcases List.mem_cons.mp h with rfl | hmt
      · cases hm rfl
      · rw [List.filter_cons, if_pos (by simp [hm]), List.length_cons]
        exact Nat.succ_lt_succ (ih hmt)

theorem make_move_unowned (s : TicTacToeState) (m : Nat) :
    (make_move s m).cells_unowned =
      s.cells_unowned.filter (fun c => decide (c ≠ m)) := rfl

theorem length_make_move_lt {s : TicTacToeState} {m : Nat}
    (h : m ∈ get_possible_moves s) :
    (make_move s m).cells_unowned.length < s.cells_unowned.length := by
  rw [make_move_unowned]
  exact length_filter_ne_lt (mem_possible_unowned h)

theorem score_fuel_terminal {s : TicTacToeState} (n : Nat)
    (h : get_possible_moves s = []) : score_fuel (n + 1) s = baseScore s := by
  simp [score_fuel, h]

theorem score_fuel_step {s : TicTacToeState} {m : Nat} {ms : List Nat}
    (n : Nat) (h : get_possible_moves s = m :: ms) :
    score_fuel (n + 1) s =
      (ms.map (fun mv => -1 * score_fuel n (make_move s mv))).foldl max
        (-1 * score_fuel n (make_move s m)) := by
  simp [score_fuel, h]

theorem score_fuel_eq_of_lt :
    ∀ n : Nat, ∀ s : TicTacToeState, s.cells_unowned.length < n →
      score_fuel n s = score_state_rec s := by
  intro n
  induction n using Nat.strong_induction_on with
  | _ n ih =>
    intro s hlen
    match n, hlen with
    | n + 1, hlen =>
      cases h : get_possible_moves s with
      | nil =>
        rw [score_fuel_terminal n h, score_state_rec,
          score_fuel_terminal s.cells_unowned.length h]
      | cons m ms =>
        have hlen' : s.cells_unowned.length ≤ n := Nat.lt_succ_iff.mp hlen
        have hchild : ∀ mv ∈ m :: ms,
            (make_move s mv).cells_unowned.length <
              s.cells_unowned.length := by
          intro mv hmv
          exact length_make_move_lt (h ▸ hmv)
        have heq : ∀ mv ∈ m :: ms,
            -1 * score_fuel n (make_move s mv) =
              -1 * score_fuel s.cells_unowned.length (make_move s mv) := by
          intro mv hmv
          rw [ih n (Nat.lt_succ_self n) _
                (Nat.lt_of_lt_of_le (hchild mv hmv) hlen'),
            ih s.cells_unowned.length hlen _ (hchild mv hmv)]
        rw [score_fuel_step n h, score_state_rec,
          score_fuel_step s.cells_unowned.length h,
          List.map_congr_left fun mv hmv =>
            heq mv (List.mem_cons.mpr (Or.inr hmv)),
          heq m (List.mem_cons.mpr (Or.inl rfl))]

theorem score_terminal {s : TicTacToeState}
    (h : get_possible_moves s = []) : score_state_rec s = baseScore s :=
  score_fuel_terminal _ h

theorem score_recurrence {s : TicTacToeState} {m : Nat} {ms : List Nat}
    (h : get_possible_moves s = m :: ms) :
    score_state_rec s =
      (ms.map (fun mv => -1 * score_state_rec (make_move s mv))).foldl max
        (-1 * score_state_rec (make_move s m)) := by
  have hchild : ∀ mv ∈ m :: ms,
      -1 * score_fuel s.cells_unowned.length (make_move s mv) =
        -1 * score_state_rec (make_move s mv) := by
    intro mv hmv
    rw [score_fuel_eq_of_lt s.cells_unowned.length _
      (length_make_move_lt (h ▸ hmv))]
  rw [score_state_rec, score_fuel_step s.cells_unowned.length h,
    List.map_congr_left fun mv hmv =>
      hchild mv (List.mem_cons.mpr (Or.inr hmv)),
    hchild m (List.mem_cons.mpr (Or.inl rfl))]

theorem baseScore_range (s : TicTacToeState) :
    baseScore s = -1 ∨ baseScore s = 0 ∨ baseScore s = 1 := by
  unfold baseScore
  split
  · exact Or.inr (Or.inr rfl)
  · split
    · exact Or.inl rfl
    · exact Or.inr (Or.inl rfl)

theorem score_fuel_range :
    ∀ n : Nat, ∀ s : TicTacToeState,
      score_fuel n s = -1 ∨ score_fuel n s = 0 ∨ score_fuel n s = 1 := by
  intro n
  induction n with
  | zero => intro s; exact Or.inr (Or.inl rfl)
  | succ n ih =>
    intro s
    cases h : get_possible_moves s with
    | nil => rw [score_fuel_terminal n h]; exact baseScore_range s
    | cons m ms =>
      rw [score_fuel_step n h]
      have hmem := foldl_max_mem
        (ms.map (fun mv => -1 * score_fuel n (make_move s mv)))
        (-1 * score_fuel n (make_move s m))
      have hneg : ∀ t : TicTacToeState,
          -1 * score_fuel n t = -1 ∨ -1 * score_fuel n t = 0 ∨
            -1 * score_fuel n t = 1 := by
        intro t
        rcases ih t with h1 | h1 | h1 <;> rw [h1] <;> simp
      rcases List.mem_cons.mp hmem with hh | hh
      · rw [hh]; exact hneg (make_move s m)
      · rcases List.mem_map.mp hh with ⟨mv, _, hmv⟩
        rw [← hmv]; exact hneg (make_move s mv)

theorem score_range (s : TicTacToeState) :
    score_state_rec s = -1 ∨ score_state_rec s = 0 ∨
      score_state_rec s = 1 :=
  score_fuel_range _ s

/-! ### Dict lemmas: Python dicts with unique keys are fixed by
`copy_dict`, and `pySet` on a present key is an in-place update. -/

theorem pyMem_iff_mem_keys {α β : Type} [DecidableEq α]
    (d : List (α × β)) (k : α) :
    pyMem d k = true ↔ k ∈ d.map Prod.fst := by
  simp [pyMem, List.any_eq_true, List.mem_map]

theorem pySet_of_mem {α β : Type} [DecidableEq α]
    {d : List (α × β)} {k : α} (v : β) (h : k ∈ d.map Prod.fst) :
    pySet d k v = d.map (fun kv => if kv.1 = k then (k, v) else kv) := by
  rw [pySet, if_pos ((pyMem_iff_mem_keys d k).mpr h)]

theorem pySet_of_not_mem {α β : Type} [DecidableEq α]
    {d : List (α × β)} {k : α} (v : β) (h : k ∉ d.map Prod.fst) :
    pySet d k v = d ++ [(k, v)] := by
  rw [pySet, if_neg]
  intro hmem
  exact h ((pyMem_iff_mem_keys d k).mp hmem)

theorem copy_dict_aux {α β : Type} [DecidableEq α] :
    ∀ (d acc : List (α × β)),
      (∀ k ∈ d.map Prod.fst, k ∉ acc.map Prod.fst) →
      (d.map Prod.fst).Nodup →
      d.foldl (fun nd kv => pySet nd kv.1 kv.2) acc = acc ++ d := by
  intro d
  induction d with
  | nil => intro acc _ _; rw [List.foldl_nil, List.append_nil]
  | cons kv rest ih =>
    intro acc hdisj hnodup
    rw [List.foldl_cons,
      pySet_of_not_mem kv.2 (hdisj kv.1 (by simp)), Prod.mk.eta]
    have hnodup' : (rest.map Prod.fst).Nodup :=
      (List.nodup_cons.mp (by simpa using hnodup)).2
    have hne : kv.1 ∉ rest.map Prod.fst :=
      (List.nodup_cons.mp (by simpa using hnodup)).1
    rw [ih (acc ++ [kv]) ?_ hnodup', List.append_assoc]
    · rfl
    · intro k hk
      rw [List.map_append, List.mem_append]
      rintro (hka | hk1)
      · exact hdisj k (by simp [hk]) hka
      · simp only [List.map_cons, List.map_nil, List.mem_singleton] at hk1
        subst hk1
        exact hne hk

theorem copy_dict_eq_self {α β : Type} [DecidableEq α]
    {d : List (α × β)} (h : (d.map Prod.fst).Nodup) : copy_dict d = d := by
  rw [copy_dict, copy_dict_aux d [] (by simp) h, List.nil_append]

/-! ### The state invariant of reachable states: the `cells_owned` dict
always has exactly the keys 1..9 in order, unowned keys still carry their
cell number, owned keys carry a player mark, and `cells_unowned` is a
subsequence of 1..9. -/

def StInv (s : TicTacToeState) : Prop :=
  s.cells_owned.map Prod.fst = allCells ∧
  s.cells_unowned.Sublist allCells ∧
  ∀ kv ∈ s.cells_owned,
    (kv.1 ∈ s.cells_unowned → kv.2 = CellVal.num kv.1) ∧
    (kv.1 ∉ s.cells_unowned →
      kv.2 = CellVal.mark Player.X ∨ kv.2 = CellVal.mark Player.O)

theorem allCells_nodup : allCells.Nodup := by decide

theorem Inv_initial : StInv (initial_state true) := by
  refine ⟨rfl, List.Sublist.refl _, ?_⟩
  decide

theorem make_move_owned_of_inv {s : TicTacToeState} {m : Nat}
    (hinv : StInv s) (hm : m ∈ s.cells_unowned) :
    (make_move s m).cells_owned =
      s.cells_owned.map
        (fun kv =>
          if kv.1 = m then (m, CellVal.mark s.current_player) else kv) := by
  have hkeys : m ∈ s.cells_owned.map Prod.fst := by
    rw [hinv.1]
    exact hinv.2.1.subset hm
  show pySet (copy_dict s.cells_owned) m (CellVal.mark s.current_player) = _
  rw [copy_dict_eq_self (hinv.1 ▸ allCells_nodup), pySet_of_mem _ hkeys]

theorem Inv_make_move {s : TicTacToeState} {m : Nat}
    (hinv : StInv s) (hm : m ∈ s.cells_unowned) : StInv (make_move s m) := by
  obtain ⟨hkeys, hsub, hvals⟩ := hinv
  refine ⟨?_, ?_, ?_⟩
  · rw [make_move_owned_of_inv ⟨hkeys, hsub, hvals⟩ hm, List.map_map,
      ← hkeys]
    apply List.map_congr_left
    intro kv _
    by_cases h : kv.1 = m
    · simp [Function.comp, h]
    · simp [Function.comp, h]
  · rw [make_move_unowned]
    exact (List.filter_sublist _).trans hsub
  · intro kv hkv
    rw [make_move_owned_of_inv ⟨hkeys, hsub, hvals⟩ hm] at hkv
    rcases List.mem_map.mp hkv with ⟨kv0, hkv0, rfl⟩
    by_cases h : kv0.1 = m
    · rw [if_pos h]
      constructor
      · intro hmem
        rw [make_move_unowned, List.mem_filter] at hmem
        simp at hmem
      · intro _
        cases s.current_player
        · exact Or.inl rfl
        · exact Or.inr rfl
    · rw [if_neg h]
      have hiff : kv0.1 ∈ (make_move s m).cells_unowned ↔
          kv0.1 ∈ s.cells_unowned := by
        rw [make_move_unowned, List.mem_filter]
        constructor
        · exact fun hx => hx.1
        · intro hx
          exact ⟨hx, by simp [h]⟩
      constructor
      · intro hmem
        exact (hvals kv0 hkv0).1 (hiff.mp hmem)
      · intro hmem
        exact (hvals kv0 hkv0).2 (fun hx => hmem (hiff.mpr hx))

theorem Reachable_Inv {s : TicTacToeState} (h : Reachable s) : StInv s := by
  induction h with
  | init => exact Inv_initial
  | step s m _ hm ih => exact Inv_make_move ih (mem_possible_unowned hm)

/-! ### Membership in the per-player cell lists and the owned/unowned
partition. -/

/-- The cells carrying some player's mark: what the specification calls
the "owned cells" of a state. -/
def ownedCells (s : TicTacToeState) : List Nat :=
  playerCells s Player.X ++ playerCells s Player.O

theorem mem_playerCells_iff {s : TicTacToeState} {p : Player} {c : Nat} :
    c ∈ playerCells s p ↔ (c, CellVal.mark p) ∈ s.cells_owned := by
  unfold playerCells
  rw [List.mem_map]
  constructor
  · rintro ⟨kv, hkv, rfl⟩
    rcases List.mem_filter.mp hkv with ⟨hmem, hval⟩
    have : kv.2 = CellVal.mark p := of_decide_eq_true hval
    rw [← Prod.mk.eta (p := kv), this] at hmem
    exact hmem
  · intro hmem
    exact ⟨(c, CellVal.mark p),
      List.mem_filter.mpr ⟨hmem, by simp⟩, rfl⟩

theorem mem_ownedCells_iff {s : TicTacToeState} {c : Nat} :
    c ∈ ownedCells s ↔
      (c, CellVal.mark Player.X) ∈ s.cells_owned ∨
        (c, CellVal.mark Player.O) ∈ s.cells_owned := by
  unfold ownedCells
  rw [List.mem_append, mem_playerCells_iff, mem_playerCells_iff]

theorem partition_of_inv {s : TicTacToeState} (hinv : StInv s) (c : Nat) :
    (c ∈ allCells ↔ c ∈ ownedCells s ∨ c ∈ s.cells_unowned) ∧
      (c ∈ ownedCells s → c ∉ s.cells_unowned) := by
  obtain ⟨hkeys, hsub, hvals⟩ := hinv
  have hdisj : c ∈ ownedCells s → c ∉ s.cells_unowned := by
    intro hc hun
    rcases mem_ownedCells_iff.mp hc with hmem | hmem
    · have := (hvals _ hmem).1 hun
      cases this
    · have := (hvals _ hmem).1 hun
      cases this
  refine ⟨⟨?_, ?_⟩, hdisj⟩
  · intro hc
    by_cases hun : c ∈ s.cells_unowned
    · exact Or.inr hun
    · rw [← hkeys] at hc
      rcases List.mem_map.mp hc with ⟨kv, hkv, rfl⟩
      rcases (hvals kv hkv).2 hun with hx | hx
      · refine Or.inl (mem_ownedCells_iff.mpr (Or.inl ?_))
        rw [← Prod.mk.eta (p := kv), hx] at hkv
        exact hkv
      · refine Or.inl (mem_ownedCells_iff.mpr (Or.inr ?_))
        rw [← Prod.mk.eta (p := kv), hx] at hkv
        exact hkv
  · rintro (hc | hc)
    · rcases mem_ownedCells_iff.mp hc with hmem | hmem
      · rw [← hkeys]
        exact List.mem_map.mpr ⟨_, hmem, rfl⟩
      · rw [← hkeys]
        exact List.mem_map.mpr ⟨_, hmem, rfl⟩
    · exact hsub.subset hc

/-! ### Characterising the termination test in the specification's
vocabulary. -/

theorem is_winner_iff {s : TicTacToeState} {p : Player} :
    is_winner s p = true ↔
      ∃ combo ∈ winning_combo, ∀ c ∈ combo,
        (c, CellVal.mark p) ∈ s.cells_owned := by
  unfold is_winner
  simp only [List.any_eq_true, List.all_eq_true, List.contains_iff_exists_mem_beq,
    beq_iff_eq]
  constructor
  · rintro ⟨combo, hc, hall⟩
    refine ⟨combo, hc, fun c hcc => ?_⟩
    rcases hall c hcc with ⟨c', hc', rfl⟩
    exact mem_playerCells_iff.mp hc'
  · rintro ⟨combo, hc, hall⟩
    refine ⟨combo, hc, fun c hcc => ?_⟩
    exact ⟨c, mem_playerCells_iff.mpr (hall c hcc), rfl⟩

theorem is_over_iff {s : TicTacToeState} :
    is_over s = true ↔
      s.cells_unowned = [] ∨
        ∃ p : Player, ∃ combo ∈ winning_combo, ∀ c ∈ combo,
          (c, CellVal.mark p) ∈ s.cells_owned := by
  unfold is_over
  by_cases hlen : s.cells_unowned.length = 0
  · rw [if_pos hlen]
    simp only [true_iff]
    exact Or.inl (List.length_eq_zero.mp hlen)
  · rw [if_neg hlen]
    have hne : ¬s.cells_unowned = [] := fun h => hlen (h ▸ rfl)
    constructor
    · intro h
      rcases List.any_eq_true.mp h with ⟨p, _, hp⟩
      exact Or.inr ⟨p, is_winner_iff.mp hp⟩
    · rintro (h | ⟨p, hp⟩)
      · exact absurd h hne
      · refine List.any_eq_true.mpr ⟨p, ?_, is_winner_iff.mpr hp⟩
        cases p
        · exact List.mem_cons.mpr (Or.inl rfl)
        · exact List.mem_cons.mpr (Or.inr (List.mem_cons.mpr (Or.inl rfl)))

theorem possible_empty_iff_over {s : TicTacToeState} :
    get_possible_moves s = [] ↔ is_over s = true := by
  unfold get_possible_moves
  by_cases hov : is_over s
  · rw [if_pos hov]
    simp [hov]
  · rw [if_neg hov]
    constructor
    · intro h
      have : is_over s = true := by
        unfold is_over
        rw [if_pos (by rw [h]; rfl)]
      exact absurd this hov
    · intro h
      exact absurd h hov

/-! ### A compact game view used to certify bounds on the scorer.

`CState` carries the same information as a reachable `TicTacToeState`
(each player's marked cells, the unowned cells, the player to move)
without the dict plumbing, so that the certificate search below is cheap
to evaluate.  `CRel` ties the two representations together and the
`c*_eq` lemmas transport every quantity the scorer reads. -/

structure CState where
  xs : List Nat
  os : List Nat
  unowned : List Nat
  player : Player
deriving DecidableEq

def cCells (t : CState) (p : Player) : List Nat :=
  match p with
  | Player.X => t.xs
  | Player.O => t.os

def lineWin (cells : List Nat) : Bool :=
  winning_combo.any (fun combo => combo.all (fun cell => decide (cell ∈ cells)))

def cMove (t : CState) (m : Nat) : CState :=
  match t.player with
  | Player.X =>
    { t with xs := t.xs ++ [m],
             unowned := t.unowned.filter (fun c => decide (c ≠ m)),
             player := Player.O }
  | Player.O =>
    { t with os := t.os ++ [m],
             unowned := t.unowned.filter (fun c => decide (c ≠ m)),
             player := Player.X }

def cOver (t : CState) : Bool :=
  decide (t.unowned.length = 0) || lineWin t.xs || lineWin t.os

def cBase (t : CState) : Int :=
  if lineWin t.os then (if t.player = Player.O then 1 else -1)
  else if lineWin t.xs then (if t.player = Player.X then 1 else -1)
  else 0

def cWinsAt (cells : List Nat) (m : Nat) : Bool :=
  winning_combo.any (fun combo =>
    decide (m ∈ combo) &&
      (combo.filter (fun c => decide (c ≠ m))).all
        (fun c => decide (c ∈ cells)))

def cPriority (t : CState) (m : Nat) : Nat :=
  if cWinsAt (cCells t t.player) m then 0
  else if cWinsAt (cCells t (opponent_of t.player)) m then 1
  else if m = 5 then 2
  else if m = 1 ∨ m = 3 ∨ m = 7 ∨ m = 9 then 3
  else 4

/-- Reorder a move list by decreasing tactical priority (wins, blocks,
centre, corners, edges).  Only a permutation: `mem_cOrder` shows the
members are unchanged, which is all the soundness proof uses. -/
def cOrder (t : CState) (l : List Nat) : List Nat :=
  let ps := l.map (fun m => (cPriority t m, m))
  ((ps.filter (fun q => decide (q.1 = 0))).map Prod.snd) ++
  ((ps.filter (fun q => decide (q.1 = 1))).map Prod.snd) ++
  ((ps.filter (fun q => decide (q.1 = 2))).map Prod.snd) ++
  ((ps.filter (fun q => decide (q.1 = 3))).map Prod.snd) ++
  ((ps.filter (fun q => decide (q.1 = 4))).map Prod.snd)

/-- Certificate search: `cCmp fuel true t v` certifies that the score of
the state `t` stands for is at most `v`, `cCmp fuel false t v` that it is
at least `v` (see `cCmp_sound`). -/
def cCmp : Nat → Bool → CState → Int → Bool
  | 0, _, _, _ => false
  | fuel + 1, le, t, v =>
    if cOver t then
      if le then decide (cBase t ≤ v) else decide (v ≤ cBase t)
    else
      if le then
        (cOrder t t.unowned).all (fun mv => cCmp fuel false (cMove t mv) (-v))
      else
        (cOrder t t.unowned).any (fun mv => cCmp fuel true (cMove t mv) (-v))

/-- The compact view of the initial state. -/
def cInit : CState :=
  { xs := [], os := [], unowned := [1, 2, 3, 4, 5, 6, 7, 8, 9],
    player := Player.X }

/-- `t` is the compact view of `s`: same marked cells (up to order), the
same unowned list, the same player to move. -/
def CRel (s : TicTacToeState) (t : CState) : Prop :=
  (∀ c, c ∈ t.xs ↔ c ∈ playerCells s Player.X) ∧
  (∀ c, c ∈ t.os ↔ c ∈ playerCells s Player.O) ∧
  t.unowned = s.cells_unowned ∧
  t.player = s.current_player

theorem lineWin_iff {cells : List Nat} :
    lineWin cells = true ↔
      ∃ combo ∈ winning_combo, ∀ c ∈ combo, c ∈ cells := by
  simp [lineWin, List.any_eq_true, List.all_eq_true]

theorem lineWin_eq_is_winner {s : TicTacToeState} {t : CState}
    (hrel : CRel s t) (p : Player) : lineWin (cCells t p) = is_winner s p := by
  have hmem : ∀ c, c ∈ cCells t p ↔ c ∈ playerCells s p := by
    cases p
    · exact hrel.1
    · exact hrel.2.1
  rw [Bool.eq_iff_iff, lineWin_iff, is_winner_iff]
  constructor
  · rintro ⟨combo, hc, hall⟩
    exact ⟨combo, hc, fun c hcc =>
      mem_playerCells_iff.mp ((hmem c).mp (hall c hcc))⟩
  · rintro ⟨combo, hc, hall⟩
    exact ⟨combo, hc, fun c hcc =>
      (hmem c).mpr (mem_playerCells_iff.mpr (hall c hcc))⟩

theorem cOver_eq {s : TicTacToeState} {t : CState} (hrel : CRel s t) :
    cOver t = is_over s := by
  have hx : lineWin t.xs = is_winner s Player.X :=
    lineWin_eq_is_winner hrel Player.X
  have ho : lineWin t.os = is_winner s Player.O :=
    lineWin_eq_is_winner hrel Player.O
  have hover : is_over s =
      (decide (s.cells_unowned.length = 0) ||
        (is_winner s Player.X || is_winner s Player.O)) := by
    rw [is_over]
    by_cases hlen : s.cells_unowned.length = 0
    · rw [if_pos hlen]
      simp [hlen]
    · rw [if_neg hlen, decide_eq_false hlen, Bool.false_or]
      show ([Player.X, Player.O].any fun p => is_winner s p) = _
      rw [List.any_cons, List.any_cons, List.any_nil, Bool.or_false]
  rw [cOver, hx, ho, hrel.2.2.1, hover, Bool.or_assoc]

theorem cBase_eq {s : TicTacToeState} {t : CState} (hrel : CRel s t) :
    cBase t = baseScore s := by
  have hx : lineWin t.xs = is_winner s Player.X :=
    lineWin_eq_is_winner hrel Player.X
  have ho : lineWin t.os = is_winner s Player.O :=
    lineWin_eq_is_winner hrel Player.O
  simp only [cBase]
  rw [hx, ho, hrel.2.2.2]
  simp only [baseScore, extract_winner]
  have hplcases : s.current_player = Player.X ∨ s.current_player = Player.O := by
    cases s.current_player
    · exact Or.inl rfl
    · exact Or.inr rfl
  rcases hplcases with hpl | hpl <;>
    rcases Bool.eq_false_or_eq_true (is_winner s Player.O) with hO | hO <;>
      rcases Bool.eq_false_or_eq_true (is_winner s Player.X) with hX | hX <;>
        simp [hpl, hO, hX, opponent_of]

theorem mem_playerCells_make_move {s : TicTacToeState} {m c : Nat}
    {p : Player} (hinv : StInv s) (hm : m ∈ s.cells_unowned) :
    c ∈ playerCells (make_move s m) p ↔
      c ∈ playerCells s p ∨ (p = s.current_player ∧ c = m) := by
  rw [mem_playerCells_iff, make_move_owned_of_inv hinv hm, List.mem_map]
  constructor
  · rintro ⟨kv, hkv, heq⟩
    by_cases h : kv.1 = m
    · rw [if_pos h] at heq
      rcases Prod.mk.injEq .. ▸ heq with ⟨h1, h2⟩
      rcases CellVal.mark.injEq .. ▸ h2.symm with h3
      exact Or.inr ⟨h3, h1.symm⟩
    · rw [if_neg h] at heq
      subst heq
      exact Or.inl (mem_playerCells_iff.mpr hkv)
  · rintro (hc | ⟨hp, hc⟩)
    · have hmem := mem_playerCells_iff.mp hc
      have hcm : c ≠ m := by
        intro h
        subst h
        have := (hinv.2.2 _ hmem).1 hm
        cases this
      exact ⟨(c, CellVal.mark p), hmem, by simp [hcm]⟩
    · subst hp
      subst hc
      have hmk : c ∈ s.cells_owned.map Prod.fst := by
        rw [hinv.1]
        exact hinv.2.1.subset hm
      rcases List.mem_map.mp hmk with ⟨kv, hkv, hkv1⟩
      exact ⟨kv, hkv, by rw [if_pos hkv1]⟩

theorem cMove_rel {s : TicTacToeState} {t : CState} {m : Nat}
    (hinv : StInv s) (hrel : CRel s t) (hm : m ∈ s.cells_unowned) :
    CRel (make_move s m) (cMove t m) := by
  obtain ⟨hxs, hos, hun, hpl⟩ := hrel
  cases hp : s.current_player with
  | X =>
    have ht : t.player = Player.X := by rw [hpl, hp]
    refine ⟨?_, ?_, ?_, ?_⟩
    · intro c
      rw [mem_playerCells_make_move hinv hm, hp]
      simp only [cMove, ht]
      rw [List.mem_append, List.mem_singleton, hxs c]
      simp
    · intro c
      rw [mem_playerCells_make_move hinv hm, hp]
      simp only [cMove, ht]
      rw [hos c]
      simp
    · simp only [cMove, ht]
      rw [hun, make_move_unowned]
    · simp only [cMove, ht]
      show Player.O = (make_move s m).current_player
      simp [make_move, next_player, hp]
  | O =>
    have ht : t.player = Player.O := by rw [hpl, hp]
    refine ⟨?_, ?_, ?_, ?_⟩
    · intro c
      rw [mem_playerCells_make_move hinv hm, hp]
      simp only [cMove, ht]
      rw [hxs c]
      simp
    · intro c
      rw [mem_playerCells_make_move hinv hm, hp]
      simp only [cMove, ht]
      rw [List.mem_append, List.mem_singleton, hos c]
      simp
    · simp only [cMove, ht]
      rw [hun, make_move_unowned]
    · simp only [cMove, ht]
      show Player.X = (make_move s m).current_player
      simp [make_move, next_player, hp]

theorem mem_bucket {t : CState} {l : List Nat} {k : Nat} {mv : Nat} :
    (mv ∈ ((l.map (fun m => (cPriority t m, m))).filter
        (fun q => decide (q.1 = k))).map Prod.snd) ↔
      (mv ∈ l ∧ cPriority t mv = k) := by
  rw [List.mem_map]
  constructor
  · rintro ⟨q, hq, rfl⟩
    rcases List.mem_filter.mp hq with ⟨hq1, hq2⟩
    rcases List.mem_map.mp hq1 with ⟨m0, hm0, rfl⟩
    exact ⟨hm0, of_decide_eq_true hq2⟩
  · rintro ⟨hmv, hk⟩
    exact ⟨(cPriority t mv, mv),
      List.mem_filter.mpr ⟨List.mem_map.mpr ⟨mv, hmv, rfl⟩, by simp [hk]⟩,
      rfl⟩

theorem cPriority_cases (t : CState) (m : Nat) :
    cPriority t m = 0 ∨ cPriority t m = 1 ∨ cPriority t m = 2 ∨
      cPriority t m = 3 ∨ cPriority t m = 4 := by
  unfold cPriority
  split_ifs <;> simp

theorem mem_cOrder {t : CState} {l : List Nat} {mv : Nat} :
    mv ∈ cOrder t l ↔ mv ∈ l := by
  simp only [cOrder, List.mem_append, mem_bucket]
  constructor
  · rintro ((((⟨h, _⟩ | ⟨h, _⟩) | ⟨h, _⟩) | ⟨h, _⟩) | ⟨h, _⟩) <;> exact h
  · intro h
    rcases cPriority_cases t mv with h0 | h0 | h0 | h0 | h0
    · exact Or.inl (Or.inl (Or.inl (Or.inl ⟨h, h0⟩)))
    · exact Or.inl (Or.inl (Or.inl (Or.inr ⟨h, h0⟩)))
    · exact Or.inl (Or.inl (Or.inr ⟨h, h0⟩))
    · exact Or.inl (Or.inr ⟨h, h0⟩)
    · exact Or.inr ⟨h, h0⟩

theorem cCmp_sound :
    ∀ fuel : Nat, ∀ s : TicTacToeState, ∀ t : CState, ∀ v : Int,
      StInv s → CRel s t →
      (cCmp fuel true t v = true → score_state_rec s ≤ v) ∧
      (cCmp fuel false t v = true → v ≤ score_state_rec s) := by
  intro fuel
  induction fuel with
  | zero =>
    intro s t v _ _
    constructor
    · intro h; simp [cCmp] at h
    · intro h; simp [cCmp] at h
  | succ fuel ih =>
    intro s t v hinv hrel
    rcases Bool.eq_false_or_eq_true (cOver t) with hcov | hcov
    · -- terminal: the scorer returns the base score
      have hovs : is_over s = true := by rw [← cOver_eq hrel]; exact hcov
      have hposs : get_possible_moves s = [] := by
        unfold get_possible_moves
        rw [hovs]
        rfl
      have hscore : score_state_rec s = cBase t := by
        rw [score_terminal hposs, cBase_eq hrel]
      constructor
      · intro h
        simp [cCmp, hcov] at h
        rw [hscore]
        exact h
      · intro h
        simp [cCmp, hcov] at h
        rw [hscore]
        exact h
    · -- non-terminal: the state has moves and the scorer takes a max
      have hovs : is_over s = false := by rw [← cOver_eq hrel]; exact hcov
      have hposs0 : get_possible_moves s = s.cells_unowned := by
        unfold get_possible_moves
        rw [hovs]
        rfl
      cases hcl : s.cells_unowned with
      | nil =>
        exfalso
        have : is_over s = true := by
          unfold is_over
          rw [if_pos (by rw [hcl]; rfl)]
        rw [this] at hovs
        cases hovs
      | cons m ms =>
        have hposs : get_possible_moves s = m :: ms := by rw [hposs0, hcl]
        have hrec := score_recurrence hposs
        have hmem_un : ∀ mv, mv ∈ m :: ms → mv ∈ s.cells_unowned := by
          intro mv hmv
          rw [hcl]
          exact hmv
        have htun : t.unowned = m :: ms := by rw [hrel.2.2.1, hcl]
        constructor
        · intro hcc
          simp only [cCmp, hcov, Bool.false_eq_true, if_false, if_true,
            List.all_eq_true] at hcc
          have hbound : ∀ mv, mv ∈ m :: ms →
              -1 * score_state_rec (make_move s mv) ≤ v := by
            intro mv hmv
            have hmvun : mv ∈ s.cells_unowned := hmem_un mv hmv
            have hc := hcc mv (mem_cOrder.mpr (htun ▸ hmv))
            have := (ih (make_move s mv) (cMove t mv) (-v)
              (Inv_make_move hinv hmvun)
              (cMove_rel hinv hrel hmvun)).2 hc
            rw [neg_one_mul]
            exact neg_le.mpr this
          rw [hrec]
          apply (foldl_max_le_iff _ _ _).mpr
          constructor
          · exact hbound m (List.mem_cons.mpr (Or.inl rfl))
          · intro y hy
            rcases List.mem_map.mp hy with ⟨mv, hmv, rfl⟩
            exact hbound mv (List.mem_cons.mpr (Or.inr hmv))
        · intro hcc
          simp only [cCmp, hcov, Bool.false_eq_true, if_false, if_true,
            List.any_eq_true] at hcc
          rcases hcc with ⟨mv, hmv0, hc⟩
          have hmv : mv ∈ m :: ms := htun ▸ mem_cOrder.mp hmv0
          have hmvun : mv ∈ s.cells_unowned := hmem_un mv hmv
          have hchild := (ih (make_move s mv) (cMove t mv) (-v)
            (Inv_make_move hinv hmvun)
            (cMove_rel hinv hrel hmvun)).1 hc
          have hv : v ≤ -1 * score_state_rec (make_move s mv) := by
            rw [neg_one_mul]
            exact le_neg.mpr hchild
          rw [hrec]
          refine le_trans hv ?_
          rcases List.mem_cons.mp hmv with rfl | hmv'
          · exact le_foldl_max_left _ _
          · exact le_foldl_max_of_mem _ (List.mem_map.mpr ⟨mv, hmv', rfl⟩)

theorem CRel_initial : CRel (initial_state true) cInit := by
  have hX : playerCells (initial_state true) Player.X = [] := rfl
  have hO : playerCells (initial_state true) Player.O = [] := rfl
  refine ⟨?_, ?_, rfl, rfl⟩
  · intro c
    rw [hX]
    exact Iff.rfl
  · intro c
    rw [hO]
    exact Iff.rfl

set_option maxHeartbeats 4000000 in
theorem cCmp_le_chunk5 : cCmp 9 false (cMove cInit 5) 0 = true := by decide

set_option maxHeartbeats 4000000 in
theorem cCmp_le_chunk1 : cCmp 9 false (cMove cInit 1) 0 = true := by decide

set_option maxHeartbeats 4000000 in
theorem cCmp_le_chunk3 : cCmp 9 false (cMove cInit 3) 0 = true := by decide

set_option maxHeartbeats 4000000 in
theorem cCmp_le_chunk7 : cCmp 9 false (cMove cInit 7) 0 = true := by decide

set_option maxHeartbeats 4000000 in
theorem cCmp_le_chunk9 : cCmp 9 false (cMove cInit 9) 0 = true := by decide

set_option maxHeartbeats 4000000 in
theorem cCmp_le_chunk2 : cCmp 9 false (cMove cInit 2) 0 = true := by decide

set_option maxHeartbeats 4000000 in
theorem cCmp_le_chunk4 : cCmp 9 false (cMove cInit 4) 0 = true := by decide

set_option maxHeartbeats 4000000 in
theorem cCmp_le_chunk6 : cCmp 9 false (cMove cInit 6) 0 = true := by decide

set_option maxHeartbeats 4000000 in
theorem cCmp_le_chunk8 : cCmp 9 false (cMove cInit 8) 0 = true := by decide

theorem cOrder_cInit :
    cOrder cInit cInit.unowned = [5, 1, 3, 7, 9, 2, 4, 6, 8] := by decide

theorem cOver_cInit : cOver cInit = false := by decide

/-- The expensive half of the empty-board certificate, assembled from the
nine per-opening-move chunks so that each kernel check stays small. -/
theorem cCmp_le_cInit : cCmp 10 true cInit 0 = true := by
  have hstep : cCmp 10 true cInit 0 =
      (if cOver cInit then decide (cBase cInit ≤ 0)
        else (cOrder cInit cInit.unowned).all
          (fun mv => cCmp 9 false (cMove cInit mv) (-0))) := rfl
  rw [hstep, cOver_cInit, if_neg (by simp), cOrder_cInit]
  simp only [List.all_cons, List.all_nil, Bool.and_eq_true, neg_zero]
  exact ⟨cCmp_le_chunk5, cCmp_le_chunk1, cCmp_le_chunk3, cCmp_le_chunk7,
    cCmp_le_chunk9, cCmp_le_chunk2, cCmp_le_chunk4, cCmp_le_chunk6,
    cCmp_le_chunk8, trivial⟩

set_option maxHeartbeats 4000000 in
theorem cCmp_ge_cInit : cCmp 10 false cInit 0 = true := by decide

/-- C3: the score of the initial state (all nine cells unowned, the
designated first player to move) is 0 — optimal play from the empty board
is a draw.  Proved by checking a pair of bound certificates
(`cCmp 10 true`/`false … 0`) whose soundness `cCmp_sound` establishes. -/
theorem score_initial_draw : score_state_rec (initial_state true) = 0 := by
  have h := cCmp_sound 10 (initial_state true) cInit 0 Inv_initial
    CRel_initial
  exact le_antisymm (h.1 cCmp_le_cInit) (h.2 cCmp_ge_cInit)

theorem pyMem_eq_isSome {α β : Type} [DecidableEq α]
    (d : List (α × β)) (k : α) : pyMem d k = (pyGet d k).isSome := by
  induction d with
  | nil => rfl
  | cons kv rest ih =>
    show (decide (kv.1 = k) || pyMem rest k) = _
    by_cases h : kv.1 = k
    · simp [pyGet, h]
    · simp [pyGet, h, ih]

theorem pyGet_append_single (d : List (Int × List Nat)) (k k' : Int)
    (v : List Nat) :
    pyGet (d ++ [(k, v)]) k' =
      match pyGet d k' with
      | some l => some l
      | none => if k' = k then some v else none := by
  induction d with
  | nil =>
    show (if k = k' then some v else none) = _
    by_cases h : k' = k
    · rw [if_pos h.symm]
      rw [pyGet]
      rw [if_pos h]
    · rw [if_neg (fun hh => h hh.symm)]
      rw [pyGet]
      rw [if_neg h]
  | cons kv rest ih =>
    show pyGet (kv :: (rest ++ [(k, v)])) k' = _
    rw [pyGet, pyGet]
    by_cases h : kv.1 = k'
    · rw [if_pos h, if_pos h]
    · rw [if_neg h, if_neg h]
      exact ih

theorem pyGet_mapUpd (d : List (Int × List Nat)) (k k' : Int) (m : Nat) :
    pyGet (d.map (fun kv => if kv.1 = k then (kv.1, kv.2 ++ [m]) else kv))
        k' =
      if k' = k then (pyGet d k).map (fun l => l ++ [m])
      else pyGet d k' := by
  by_cases hk : k' = k
  · subst hk
    rw [if_pos rfl]
    induction d with
    | nil => rfl
    | cons kv rest ih =>
      by_cases h1 : kv.1 = k'
      · simp [pyGet, h1]
      · simp [pyGet, h1, ih]
  · rw [if_neg hk]
    induction d with
    | nil => rfl
    | cons kv rest ih =>
      by_cases h1 : kv.1 = k
      · have h3 : ¬kv.1 = k' := fun hh => hk (hh.symm.trans h1)
        have h4 : ¬k = k' := fun hh => hk hh.symm
        simp [pyGet, h1, h3, h4, ih]
      · by_cases h3 : kv.1 = k'
        · simp [pyGet, h1, h3, hk]
        · simp [pyGet, h1, h3, ih]

theorem pyGet_addMove (d : List (Int × List Nat)) (k k' : Int) (m : Nat) :
    pyGet (addMove d k m) k' =
      if k' = k then
        (match pyGet d k with
          | none => some [m]
          | some l => some (l ++ [m]))
      else pyGet d k' := by
  unfold addMove
  rcases Bool.eq_false_or_eq_true (pyMem d k) with hmem | hmem
  · rw [hmem, if_neg (by simp), pyGet_mapUpd]
    by_cases hk : k' = k
    · rw [if_pos hk, if_pos hk]
      have hget : (pyGet d k).isSome = true := by
        rw [pyMem_eq_isSome] at hmem
        rw [← hmem]
      rcases Option.isSome_iff_exists.mp hget with ⟨l, hl⟩
      rw [hl]
      rfl
    · rw [if_neg hk, if_neg hk]
  · rw [hmem, if_pos rfl, pyGet_append_single]
    have hget : pyGet d k = none := by
      rw [pyMem_eq_isSome] at hmem
      exact Option.not_isSome_iff_eq_none.mp (by rw [hmem]; simp)
    by_cases hk : k' = k
    · subst hk
      rw [hget]
    · simp only [if_neg hk]
      cases hd : pyGet d k' with
      | none => rfl
      | some l => rfl

theorem foldl_addMove_pyGet (f : Nat → Int) :
    ∀ (ms p : List Nat) (d : List (Int × List Nat)),
      (∀ k, pyGet d k =
        (if p.filter (fun mv => decide (f mv = k)) = [] then none
          else some (p.filter (fun mv => decide (f mv = k))))) →
      ∀ k, pyGet (ms.foldl (fun d mv => addMove d (f mv) mv) d) k =
        (if (p ++ ms).filter (fun mv => decide (f mv = k)) = [] then none
          else some ((p ++ ms).filter (fun mv => decide (f mv = k)))) := by
  intro ms
  induction ms with
  | nil =>
    intro p d h k
    rw [List.foldl_nil, List.append_nil]
    exact h k
  | cons mv rest ih =>
    intro p d h k
    rw [List.foldl_cons]
    have hstep : ∀ k, pyGet (addMove d (f mv) mv) k =
        (if (p ++ [mv]).filter (fun x => decide (f x = k)) = [] then none
          else some ((p ++ [mv]).filter (fun x => decide (f x = k)))) := by
      intro k
      rw [pyGet_addMove]
      by_cases hk : k = f mv
      · subst hk
        rw [if_pos rfl, h (f mv)]
        by_cases hp : p.filter (fun x => decide (f x = f mv)) = []
        · rw [if_pos hp]
          have hfil : (p ++ [mv]).filter (fun x => decide (f x = f mv)) =
              [mv] := by
            rw [List.filter_append, hp, List.nil_append]
            simp
          rw [hfil]
          simp
        · rw [if_neg hp]
          have hfil : (p ++ [mv]).filter (fun x => decide (f x = f mv)) =
              p.filter (fun x => decide (f x = f mv)) ++ [mv] := by
            rw [List.filter_append]
            simp
          rw [hfil, if_neg (by simp)]
      · rw [if_neg hk, h k]
        have hfil : (p ++ [mv]).filter (fun x => decide (f x = k)) =
            p.filter (fun x => decide (f x = k)) := by
          rw [List.filter_append]
          have hmv : [mv].filter (fun x => decide (f x = k)) = [] := by
            simp
            exact fun hh => hk hh.symm
          rw [hmv, List.append_nil]
        rw [hfil]
    have hres := ih (p ++ [mv]) (addMove d (f mv) mv) hstep k
    rw [List.append_assoc] at hres
    exact hres

theorem buildDict_pyGet (f : Nat → Int) (ms : List Nat) (k : Int) :
    pyGet (ms.foldl (fun d mv => addMove d (f mv) mv) []) k =
      (if ms.filter (fun mv => decide (f mv = k)) = [] then none
        else some (ms.filter (fun mv => decide (f mv = k)))) := by
  have h := foldl_addMove_pyGet f ms [] []
    (by intro k; simp [pyGet]) k
  rw [List.nil_append] at h
  exact h

theorem pyGet_isSome_iff_keys {α β : Type} [DecidableEq α]
    (d : List (α × β)) (k : α) :
    (pyGet d k).isSome = true ↔ k ∈ d.map Prod.fst := by
  rw [← pyMem_eq_isSome]
  exact pyMem_iff_mem_keys d k

theorem buildDict_keys_mem (f : Nat → Int) (ms : List Nat) (k : Int) :
    k ∈ (ms.foldl (fun d mv => addMove d (f mv) mv) []).map Prod.fst ↔
      k ∈ ms.map f := by
  rw [← pyGet_isSome_iff_keys, buildDict_pyGet]
  by_cases hp : ms.filter (fun mv => decide (f mv = k)) = []
  · rw [if_pos hp]
    simp only [Option.isSome_none, Bool.false_eq_true, false_iff]
    intro hmem
    rcases List.mem_map.mp hmem with ⟨mv, hmv, rfl⟩
    have := List.filter_eq_nil_iff.mp hp mv hmv
    simp at this
  · rw [if_neg hp]
    simp only [Option.isSome_some, true_iff]
    rcases List.exists_mem_of_ne_nil _ hp with ⟨mv, hmv⟩
    rcases List.mem_filter.mp hmv with ⟨hmv1, hmv2⟩
    exact List.mem_map.mpr ⟨mv, hmv1, of_decide_eq_true hmv2⟩

theorem max?_congr {l1 l2 : List Int} (h : ∀ x, x ∈ l1 ↔ x ∈ l2) :
    l1.max? = l2.max? := by
  cases l1 with
  | nil =>
    cases l2 with
    | nil => rfl
    | cons b t2 =>
      exact absurd ((h b).mpr (List.mem_cons_self b t2))
        (List.not_mem_nil b)
  | cons a t1 =>
    cases l2 with
    | nil =>
      exact absurd ((h a).mp (List.mem_cons_self a t1)) (List.not_mem_nil a)
    | cons b t2 =>
      show some (t1.foldl max a) = some (t2.foldl max b)
      congr 1
      apply le_antisymm
      · rcases List.mem_cons.mp ((h _).mp (foldl_max_mem t1 a)) with he | he
        · rw [he]
          exact le_foldl_max_left _ _
        · exact le_foldl_max_of_mem _ he
      · rcases List.mem_cons.mp ((h _).mpr (foldl_max_mem t2 b)) with he | he
        · rw [he]
          exact le_foldl_max_left _ _
        · exact le_foldl_max_of_mem _ he

theorem get_best_moves_terminal {s : TicTacToeState}
    (h : get_possible_moves s = []) : get_best_moves_rec s = none := by
  unfold get_best_moves_rec
  rw [h]
  rfl

theorem get_best_moves_spec {s : TicTacToeState} {m : Nat} {ms : List Nat}
    (h : get_possible_moves s = m :: ms) :
    ∃ K : Int,
      ((m :: ms).map
        (fun mv => -1 * score_state_rec (make_move s mv))).max? = some K ∧
      get_best_moves_rec s =
        some ((m :: ms).filter
          (fun mv => decide (-1 * score_state_rec (make_move s mv) = K))) := by
  have hmax : ((m :: ms).map
      (fun mv => -1 * score_state_rec (make_move s mv))).max? =
        some (((ms.map
          (fun mv => -1 * score_state_rec (make_move s mv))).foldl max
            (-1 * score_state_rec (make_move s m)))) := rfl
  refine ⟨_, hmax, ?_⟩
  have hKmem : ((ms.map
      (fun mv => -1 * score_state_rec (make_move s mv))).foldl max
        (-1 * score_state_rec (make_move s m))) ∈
      (m :: ms).map (fun mv => -1 * score_state_rec (make_move s mv)) := by
    rw [List.map_cons]
    exact foldl_max_mem _ _
  have hfil_ne : (m :: ms).filter
      (fun mv => decide (-1 * score_state_rec (make_move s mv) =
        ((ms.map (fun mv => -1 * score_state_rec (make_move s mv))).foldl
          max (-1 * score_state_rec (make_move s m))))) ≠ [] := by
    rcases List.mem_map.mp hKmem with ⟨mv, hmv, hfmv⟩
    intro hnil
    have := List.filter_eq_nil_iff.mp hnil mv hmv
    rw [hfmv] at this
    simp at this
  have hget := buildDict_pyGet
    (fun mv => -1 * score_state_rec (make_move s mv)) (m :: ms)
    ((ms.map (fun mv => -1 * score_state_rec (make_move s mv))).foldl max
      (-1 * score_state_rec (make_move s m)))
  rw [if_neg hfil_ne] at hget
  have hDmax : (((m :: ms).foldl
      (fun d mv => addMove d (-1 * score_state_rec (make_move s mv)) mv)
      []).map Prod.fst).max? =
      some (((ms.map
        (fun mv => -1 * score_state_rec (make_move s mv))).foldl max
          (-1 * score_state_rec (make_move s m)))) := by
    rw [max?_congr (buildDict_keys_mem
      (fun mv => -1 * score_state_rec (make_move s mv)) (m :: ms))]
    exact hmax
  have hunfold : get_best_moves_rec s =
      (match (((m :: ms).foldl
          (fun d mv =>
            addMove d (-1 * score_state_rec (make_move s mv)) mv)
          []).map Prod.fst).max? with
        | none => none
        | some k =>
          pyGet ((m :: ms).foldl
            (fun d mv =>
              addMove d (-1 * score_state_rec (make_move s mv)) mv) []) k) := by
    unfold get_best_moves_rec
    rw [h]
  rw [hunfold, hDmax]
  exact hget

/-! ### The concrete scenario states of the specification. -/

/-- The spec's scenario board `{1: A, 2: A, 4: B, 5: B}` with
`{3, 6, 7, 8, 9}` unowned and player A (= X, the first player) to move. -/
def s9 : TicTacToeState :=
  { cells_owned :=
      [(1, CellVal.mark Player.X), (2, CellVal.mark Player.X),
       (3, CellVal.num 3), (4, CellVal.mark Player.O),
       (5, CellVal.mark Player.O), (6, CellVal.num 6),
       (7, CellVal.num 7), (8, CellVal.num 8), (9, CellVal.num 9)]
    cells_unowned := [3, 6, 7, 8, 9]
    current_player := Player.X }

/-- A reachable terminal state in which X has completed the top row while
cells 6, 7, 8, 9 are still unowned. -/
def s_win : TicTacToeState :=
  { cells_owned :=
      [(1, CellVal.mark Player.X), (2, CellVal.mark Player.X),
       (3, CellVal.mark Player.X), (4, CellVal.mark Player.O),
       (5, CellVal.mark Player.O), (6, CellVal.num 6),
       (7, CellVal.num 7), (8, CellVal.num 8), (9, CellVal.num 9)]
    cells_unowned := [6, 7, 8, 9]
    current_player := Player.O }

theorem reachable_s9 : Reachable s9 := by
  have h0 : Reachable (initial_state true) := Reachable.init
  have h1 : Reachable (make_move (initial_state true) 1) :=
    Reachable.step _ _ h0 (by decide)
  have h2 : Reachable (make_move (make_move (initial_state true) 1) 4) :=
    Reachable.step _ _ h1 (by decide)
  have h3 : Reachable
      (make_move (make_move (make_move (initial_state true) 1) 4) 2) :=
    Reachable.step _ _ h2 (by decide)
  have h4 : Reachable
      (make_move
        (make_move (make_move (make_move (initial_state true) 1) 4) 2) 5) :=
    Reachable.step _ _ h3 (by decide)
  have he : make_move
      (make_move (make_move (make_move (initial_state true) 1) 4) 2) 5 =
      s9 := by decide
  exact he ▸ h4

theorem reachable_s_win : Reachable s_win := by
  have h5 : Reachable (make_move s9 3) :=
    Reachable.step _ _ reachable_s9 (by decide)
  have he : make_move s9 3 = s_win := by decide
  exact he ▸ h5

/-! ### A heap model of `make_move` for the mutation claim.

Python objects live on a heap; `state.cells_owned` is a reference to a
dict.  `make_move` (lines 204-213) builds `new_cells_unowned` by list
comprehension, calls `copy_dict` — which allocates a fresh dict and fills
it — and then mutates only that fresh dict (`new_cells_owned[move] = …`,
line 211) before wrapping the three values in a new state object.  The
heap model makes the allocation and the single mutation explicit so that
"the receiver is not mutated" is a provable statement rather than a
modelling assumption. -/

structure Heap where
  dicts : List (List (Nat × CellVal))

def listIdx : List (List (Nat × CellVal)) → Nat → List (Nat × CellVal)
  | [], _ => []
  | d :: _, 0 => d
  | _ :: rest, n + 1 => listIdx rest n

def listSet :
    List (List (Nat × CellVal)) → Nat → List (Nat × CellVal) →
      List (List (Nat × CellVal))
  | [], _, _ => []
  | _ :: rest, 0, d => d :: rest
  | d0 :: rest, n + 1, d => d0 :: listSet rest n d

def hget (h : Heap) (a : Nat) : List (Nat × CellVal) := listIdx h.dicts a

def halloc (h : Heap) (d : List (Nat × CellVal)) : Heap × Nat :=
  ({ dicts := h.dicts ++ [d] }, h.dicts.length)

def hset (h : Heap) (a : Nat) (d : List (Nat × CellVal)) : Heap :=
  { dicts := listSet h.dicts a d }

/-- A state object whose `cells_owned` is a heap reference. -/
structure StateRef where
  owned_ref : Nat
  cells_unowned : List Nat
  current_player : Player

/-- Dereference a `StateRef` into the value-level state. -/
def stateVal (h : Heap) (s : StateRef) : TicTacToeState :=
  { cells_owned := hget h s.owned_ref
    cells_unowned := s.cells_unowned
    current_player := s.current_player }

/-- `TicTacToeState.make_move` in the heap model: allocate the copy that
`copy_dict` builds, write the mover's mark into the fresh dict only, and
return a new state object pointing at it. -/
def make_move_heap (h : Heap) (s : StateRef) (move : Nat) :
    Heap × StateRef :=
  let new_cells_unowned :=
    s.cells_unowned.filter (fun c => decide (c ≠ move))
  let alloc := halloc h (copy_dict (hget h s.owned_ref))
  let h2 := hset alloc.1 alloc.2
    (pySet (hget alloc.1 alloc.2) move (CellVal.mark s.current_player))
  (h2, { owned_ref := alloc.2
         cells_unowned := new_cells_unowned
         current_player := next_player s.current_player })

theorem listIdx_append_lt :
    ∀ (l : List (List (Nat × CellVal))) (d : List (Nat × CellVal))
      (a : Nat), a < l.length → listIdx (l ++ [d]) a = listIdx l a := by
  intro l
  induction l with
  | nil => intro d a ha; cases ha
  | cons d0 rest ih =>
    intro d a ha
    cases a with
    | zero => rfl
    | succ n =>
      show listIdx (rest ++ [d]) n = listIdx rest n
      exact ih d n (Nat.lt_of_succ_lt_succ ha)

theorem listIdx_append_self :
    ∀ (l : List (List (Nat × CellVal))) (d : List (Nat × CellVal)),
      listIdx (l ++ [d]) l.length = d := by
  intro l
  induction l with
  | nil => intro d; rfl
  | cons d0 rest ih => intro d; exact ih d

theorem listIdx_listSet_ne :
    ∀ (l : List (List (Nat × CellVal))) (a b : Nat)
      (d : List (Nat × CellVal)), a ≠ b →
      listIdx (listSet l a d) b = listIdx l b := by
  intro l
  induction l with
  | nil => intro a b d _; rfl
  | cons d0 rest ih =>
    intro a b d hne
    cases a with
    | zero =>
      cases b with
      | zero => cases hne rfl
      | succ bn => rfl
    | succ an =>
      cases b with
      | zero => rfl
      | succ bn =>
        show listIdx (listSet rest an d) bn = listIdx rest bn
        exact ih an bn d (fun hh => hne (by rw [hh]))

theorem listIdx_listSet_self :
    ∀ (l : List (List (Nat × CellVal))) (a : Nat)
      (d : List (Nat × CellVal)), a < l.length →
      listIdx (listSet l a d) a = d := by
  intro l
  induction l with
  | nil => intro a d ha; cases ha
  | cons d0 rest ih =>
    intro a d ha
    cases a with
    | zero => rfl
    | succ n => exact ih n d (Nat.lt_of_succ_lt_succ ha)

theorem length_listSet :
    ∀ (l : List (List (Nat × CellVal))) (a : Nat)
      (d : List (Nat × CellVal)),
      (listSet l a d).length = l.length := by
  intro l
  induction l with
  | nil => intro a d; rfl
  | cons d0 rest ih =>
    intro a d
    cases a with
    | zero => rfl
    | succ n => exact congrArg Nat.succ (ih n d)

theorem make_move_heap_spec (h : Heap) (s : StateRef) (move : Nat)
    (hlt : s.owned_ref < h.dicts.length) :
    hget (make_move_heap h s move).1 s.owned_ref = hget h s.owned_ref ∧
    (make_move_heap h s move).2.owned_ref = h.dicts.length ∧
    (make_move_heap h s move).1.dicts.length = h.dicts.length + 1 ∧
    stateVal (make_move_heap h s move).1 (make_move_heap h s move).2 =
      make_move (stateVal h s) move := by
  have hne : s.owned_ref ≠ h.dicts.length := Nat.ne_of_lt hlt
  refine ⟨?_, rfl, ?_, ?_⟩
  · show listIdx (listSet (h.dicts ++ [copy_dict (hget h s.owned_ref)])
        h.dicts.length _) s.owned_ref = hget h s.owned_ref
    rw [listIdx_listSet_ne _ _ _ _ (fun hh => hne hh.symm),
      listIdx_append_lt _ _ _ hlt]
    rfl
  · show (listSet (h.dicts ++ [copy_dict (hget h s.owned_ref)])
        h.dicts.length _).length = h.dicts.length + 1
    rw [length_listSet, List.length_append, List.length_cons,
      List.length_nil]
  · show TicTacToeState.mk
        (listIdx (listSet (h.dicts ++ [copy_dict (hget h s.owned_ref)])
          h.dicts.length
          (pySet (listIdx (h.dicts ++ [copy_dict (hget h s.owned_ref)])
            h.dicts.length) move (CellVal.mark s.current_player)))
          h.dicts.length)
        (s.cells_unowned.filter (fun c => decide (c ≠ move)))
        (next_player s.current_player) =
      make_move (stateVal h s) move
    rw [listIdx_listSet_self _ _ _
        (by rw [List.length_append, List.length_cons, List.length_nil]
            exact Nat.lt_succ_self _),
      listIdx_append_self]
    rfl

/-! ### The claims. -/

/-- C1: `score_state_rec` satisfies the negamax definition.  On a terminal
state (no possible moves) it returns 1 when the classified outcome
(`extract_winner`) is the current player, -1 when it is the opponent, and
0 for a tie; on a non-terminal state it returns the maximum over all
legal moves of the negated score of the child state. -/
theorem negamax_spec (s : TicTacToeState) :
    (get_possible_moves s = [] →
      (extract_winner s = some s.current_player → score_state_rec s = 1) ∧
      (extract_winner s = some (opponent_of s.current_player) →
        score_state_rec s = -1) ∧
      (extract_winner s = none → score_state_rec s = 0)) ∧
    (get_possible_moves s ≠ [] →
      ((get_possible_moves s).map
        (fun mv => -1 * score_state_rec (make_move s mv))).max? =
        some (score_state_rec s)) := by
  constructor
  · intro h
    rw [score_terminal h]
    unfold baseScore
    refine ⟨?_, ?_, ?_⟩
    · intro hw
      rw [if_pos hw]
    · intro hw
      by_cases h1 : extract_winner s = some s.current_player
      · exfalso
        rw [h1] at hw
        have heq : s.current_player = opponent_of s.current_player :=
          Option.some.injEq .. ▸ hw
        cases hp : s.current_player <;> rw [hp] at heq <;>
          simp [opponent_of] at heq
      · rw [if_neg h1, if_pos hw]
    · intro hw
      rw [if_neg (by rw [hw]; simp), if_neg (by rw [hw]; simp)]
  · intro h
    cases hm : get_possible_moves s with
    | nil => cases h hm
    | cons m ms =>
      rw [score_recurrence hm]
      rfl

/-- Witness for C1: the terminal branch at `s_win` (X has won, O to move,
so the score is -1) and the recursive branch at the scenario state
`s9`. -/
theorem negamax_spec_witness :
    score_state_rec s_win = -1 ∧
    ((get_possible_moves s9).map
      (fun mv => -1 * score_state_rec (make_move s9 mv))).max? =
      some (score_state_rec s9) :=
  ⟨((negamax_spec s_win).1 (by decide)).2.1 (by decide),
   (negamax_spec s9).2 (by decide)⟩

/-- C2 counterexample: at the reachable non-terminal state `s9` the code's
score is 1, while `-1 * max(score(child) for child in successors)` is
`-1 * 1 = -1`: the claimed identity fails (the code negates each child
score before taking the maximum, which is `-min`, not `-max`). -/
theorem score_not_neg_max_children :
    Reachable s9 ∧
    get_possible_moves s9 ≠ [] ∧
    ((get_possible_moves s9).map
      (fun mv => score_state_rec (make_move s9 mv))).max? = some 1 ∧
    score_state_rec s9 = 1 ∧
    score_state_rec s9 ≠
      -1 * (((get_possible_moves s9).map
        (fun mv => score_state_rec (make_move s9 mv))).max?.getD 0) :=
  ⟨reachable_s9, by decide, by decide, by decide, by decide⟩

/-- C2 (amended): for every reachable state the score lies in
{-1, 0, 1}, and for every non-terminal reachable state the score equals
the maximum over successors of `-1 * score(child)` (equivalently
`-1 * min(score(child))`, not `-1 * max(score(child))`). -/
theorem score_range_and_recurrence (s : TicTacToeState)
    (h : Reachable s) :
    (score_state_rec s = -1 ∨ score_state_rec s = 0 ∨
      score_state_rec s = 1) ∧
    (get_possible_moves s ≠ [] →
      ((get_possible_moves s).map
        (fun mv => -1 * score_state_rec (make_move s mv))).max? =
        some (score_state_rec s)) := by
  refine ⟨score_range s, ?_⟩
  intro hne
  cases hm : get_possible_moves s with
  | nil => cases hne hm
  | cons m ms =>
    rw [score_recurrence hm]
    rfl

/-- Witness for C2 (amended) at the reachable state `s9`. -/
theorem score_range_and_recurrence_witness :
    (score_state_rec s9 = -1 ∨ score_state_rec s9 = 0 ∨
      score_state_rec s9 = 1) ∧
    ((get_possible_moves s9).map
      (fun mv => -1 * score_state_rec (make_move s9 mv))).max? =
      some (score_state_rec s9) :=
  ⟨(score_range_and_recurrence s9 reachable_s9).1,
   (score_range_and_recurrence s9 reachable_s9).2 (by decide)⟩

/-- C4: for a non-terminal state, `get_best_moves_rec` returns exactly the
legal moves whose negated child score attains the maximum negated child
score; it is a plain function of the state (deterministic), the random
tie-break living only in `recursive_minimax`. -/
theorem best_moves_argmax (s : TicTacToeState)
    (h : get_possible_moves s ≠ []) :
    ∃ K : Int,
      ((get_possible_moves s).map
        (fun mv => -1 * score_state_rec (make_move s mv))).max? =
        some K ∧
      ∃ l : List Nat, get_best_moves_rec s = some l ∧
        ∀ mv : Nat, mv ∈ l ↔
          (mv ∈ get_possible_moves s ∧
            -1 * score_state_rec (make_move s mv) = K) := by
  cases hm : get_possible_moves s with
  | nil => cases h hm
  | cons m ms =>
    rcases get_best_moves_spec hm with ⟨K, hmax, hbest⟩
    refine ⟨K, hmax,
      (m :: ms).filter
        (fun mv => decide (-1 * score_state_rec (make_move s mv) = K)),
      hbest, ?_⟩
    intro mv
    simp [List.mem_filter]

/-- Witness for C4 at the scenario state `s9`. -/
theorem best_moves_argmax_witness :
    ∃ K : Int,
      ((get_possible_moves s9).map
        (fun mv => -1 * score_state_rec (make_move s9 mv))).max? =
        some K ∧
      ∃ l : List Nat, get_best_moves_rec s9 = some l ∧
        ∀ mv : Nat, mv ∈ l ↔
          (mv ∈ get_possible_moves s9 ∧
            -1 * score_state_rec (make_move s9 mv) = K) :=
  best_moves_argmax s9 (by decide)

/-- C5: `get_possible_moves` is empty exactly when the state is terminal
(no unowned cell left, or some player owns a complete winning line — in
particular even when unowned cells remain); otherwise it returns the
`cells_unowned` list itself, which for reachable states is a subsequence
of 1..9 (the insertion order). -/
theorem possible_moves_spec (s : TicTacToeState) :
    (get_possible_moves s = [] ↔
      (s.cells_unowned = [] ∨
        ∃ p : Player, ∃ combo ∈ winning_combo, ∀ c ∈ combo,
          (c, CellVal.mark p) ∈ s.cells_owned)) ∧
    (get_possible_moves s ≠ [] →
      get_possible_moves s = s.cells_unowned) ∧
    (Reachable s → s.cells_unowned.Sublist allCells) := by
  exact ⟨possible_empty_iff_over.trans is_over_iff,
    possible_of_not_over, fun h => (Reachable_Inv h).2.1⟩

/-- Witness for C5: `s_win` is terminal with unowned cells remaining
(diagonal-style completed line), `s9` is non-terminal and returns its
unowned list, and the unowned list of the reachable `s_win` is a
subsequence of 1..9. -/
theorem possible_moves_spec_witness :
    get_possible_moves s_win = [] ∧ s_win.cells_unowned ≠ [] ∧
    get_possible_moves s9 = s9.cells_unowned ∧
    s_win.cells_unowned.Sublist allCells :=
  ⟨(possible_moves_spec s_win).1.mpr
      (Or.inr ⟨Player.X, [1, 2, 3], by decide, by decide⟩),
   by decide,
   (possible_moves_spec s9).2.1 (by decide),
   (possible_moves_spec s_win).2.2 reachable_s_win⟩

/-- C6 counterexample: at the reachable state `s_win` the game is over
(X owns the top row) while cells 6, 7, 8, 9 are still unowned, so
`possible_moves() ∪ owned cells` misses cell 6 and is not all 9 cells:
the claimed equality `possible_moves() ∪ owned = all cells` fails at
terminal states with unowned cells left. -/
theorem possible_union_owned_incomplete :
    Reachable s_win ∧ 6 ∈ allCells ∧ 6 ∉ get_possible_moves s_win ∧
    6 ∉ ownedCells s_win ∧ s_win.cells_unowned ≠ [] :=
  ⟨reachable_s_win, by decide, by decide, by decide, by decide⟩

/-- C6 (amended): for every reachable state the owned cells and the
`cells_unowned` set partition the 9 cells (the invariant `make_move`
preserves); `possible_moves() ∪ owned = all 9 cells` holds whenever the
state is non-terminal, since `possible_moves()` then coincides with the
unowned cells. -/
theorem owned_unowned_partition (s : TicTacToeState) (h : Reachable s) :
    (∀ c, c ∈ allCells ↔ (c ∈ ownedCells s ∨ c ∈ s.cells_unowned)) ∧
    (∀ c, c ∈ ownedCells s → c ∉ s.cells_unowned) ∧
    (get_possible_moves s ≠ [] →
      ∀ c, c ∈ allCells ↔
        (c ∈ ownedCells s ∨ c ∈ get_possible_moves s)) := by
  have hinv := Reachable_Inv h
  refine ⟨fun c => (partition_of_inv hinv c).1,
    fun c => (partition_of_inv hinv c).2, ?_⟩
  intro hne c
  rw [possible_of_not_over hne]
  exact (partition_of_inv hinv c).1

/-- Witness for C6 (amended) at the reachable state `s9`. -/
theorem owned_unowned_partition_witness :
    (5 ∈ allCells ↔ (5 ∈ ownedCells s9 ∨ 5 ∈ s9.cells_unowned)) ∧
    (5 ∈ ownedCells s9 → 5 ∉ s9.cells_unowned) ∧
    (3 ∈ allCells ↔ (3 ∈ ownedCells s9 ∨ 3 ∈ get_possible_moves s9)) :=
  ⟨(owned_unowned_partition s9 reachable_s9).1 5,
   (owned_unowned_partition s9 reachable_s9).2.1 5,
   (owned_unowned_partition s9 reachable_s9).2.2 (by decide) 3⟩

/-- C7 counterexample: `make_move` raises nothing and rejects nothing.
Replaying the already-owned cell 1 silently overwrites X's mark with O's;
the out-of-range cell 42 is silently added to the dict; a move on the
terminal state `s_win` is silently applied as well. -/
theorem make_move_silently_applies :
    pyGet (make_move (initial_state true) 1).cells_owned 1 =
      some (CellVal.mark Player.X) ∧
    pyGet (make_move (make_move (initial_state true) 1) 1).cells_owned 1 =
      some (CellVal.mark Player.O) ∧
    pyGet (make_move (initial_state true) 42).cells_owned 42 =
      some (CellVal.mark Player.X) ∧
    pyGet (make_move s_win 6).cells_owned 6 =
      some (CellVal.mark Player.O) :=
  ⟨by decide, by decide, by decide, by decide⟩

/-- C7 (amended): `make_move` performs no validation and never signals an
error — for every state and cell it unconditionally returns the updated
state.  Invalidity is instead reported by `is_valid_move`, which returns
false exactly when the state is already terminal or the cell is not
among the unowned cells (owned or out of range); the CLI driver re-checks
it before applying a move. -/
theorem make_move_no_validation (s : TicTacToeState) (move : Nat) :
    make_move s move =
      { cells_owned := pySet (copy_dict s.cells_owned) move
          (CellVal.mark s.current_player)
        cells_unowned :=
          s.cells_unowned.filter (fun c => decide (c ≠ move))
        current_player := next_player s.current_player } ∧
    (is_valid_move s move = false ↔
      (get_possible_moves s = [] ∨ move ∉ s.cells_unowned)) := by
  refine ⟨rfl, ?_⟩
  have hval : is_valid_move s move = true ↔
      move ∈ get_possible_moves s := by
    unfold is_valid_move
    rw [List.contains_iff_exists_mem_beq]
    constructor
    · rintro ⟨a, ha, hb⟩
      rw [beq_iff_eq] at hb
      rw [hb]
      exact ha
    · intro hmem
      exact ⟨move, hmem, by simp⟩
  constructor
  · intro hfalse
    have hnot : move ∉ get_possible_moves s := by
      intro hmem
      rw [hval.mpr hmem] at hfalse
      cases hfalse
    by_cases hp : get_possible_moves s = []
    · exact Or.inl hp
    · refine Or.inr ?_
      rw [← possible_of_not_over hp]
      exact hnot
  · intro hor
    rcases Bool.eq_false_or_eq_true (is_valid_move s move) with hf | hf
    · exfalso
      have hmem := hval.mp hf
      rcases hor with hp | hnot
      · rw [hp] at hmem
        cases hmem
      · exact hnot (mem_possible_unowned hmem)
    · exact hf

/-- C8: in the heap model, `make_move` is free of mutation and
referentially transparent: the receiver's dict (and hence the receiver's
observable state) is unchanged by the call, the result lives at a fresh
reference, the result's value is exactly the pure `make_move` of the
receiver's value, and calling it a second time on the same receiver
yields an equal (but not identical — distinct reference) output. -/
theorem make_move_heap_frame (h : Heap) (s : StateRef) (move : Nat)
    (hlt : s.owned_ref < h.dicts.length) :
    hget (make_move_heap h s move).1 s.owned_ref = hget h s.owned_ref ∧
    stateVal (make_move_heap h s move).1 s = stateVal h s ∧
    (make_move_heap h s move).2.owned_ref ≠ s.owned_ref ∧
    stateVal (make_move_heap h s move).1 (make_move_heap h s move).2 =
      make_move (stateVal h s) move ∧
    stateVal (make_move_heap (make_move_heap h s move).1 s move).1
        (make_move_heap (make_move_heap h s move).1 s move).2 =
      stateVal (make_move_heap h s move).1 (make_move_heap h s move).2 ∧
    (make_move_heap (make_move_heap h s move).1 s move).2.owned_ref ≠
      (make_move_heap h s move).2.owned_ref := by
  obtain ⟨h1, h2, h3, h4⟩ := make_move_heap_spec h s move hlt
  have hlt2 : s.owned_ref < (make_move_heap h s move).1.dicts.length := by
    rw [h3]
    exact Nat.lt_succ_of_lt hlt
  obtain ⟨g1, g2, g3, g4⟩ :=
    make_move_heap_spec (make_move_heap h s move).1 s move hlt2
  have hsv : stateVal (make_move_heap h s move).1 s = stateVal h s := by
    unfold stateVal
    rw [h1]
  refine ⟨h1, hsv, ?_, h4, ?_, ?_⟩
  · rw [h2]
    exact (Nat.ne_of_lt hlt).symm
  · rw [g4, hsv, ← h4]
  · rw [g2, h2, h3]
    exact Nat.succ_ne_self h.dicts.length

/-- The one-dict heap holding the initial board, and a state object
referring to it. -/
def heap0 : Heap := { dicts := [initial_owned] }

/-- The initial state as a heap object. -/
def sref0 : StateRef :=
  { owned_ref := 0, cells_unowned := allCells
    current_player := Player.X }

/-- Witness for C8 at the initial board's heap object and move 1. -/
theorem make_move_heap_frame_witness :
    hget (make_move_heap heap0 sref0 1).1 sref0.owned_ref =
      hget heap0 sref0.owned_ref ∧
    stateVal (make_move_heap heap0 sref0 1).1 sref0 =
      stateVal heap0 sref0 ∧
    (make_move_heap heap0 sref0 1).2.owned_ref ≠ sref0.owned_ref ∧
    stateVal (make_move_heap heap0 sref0 1).1
        (make_move_heap heap0 sref0 1).2 =
      make_move (stateVal heap0 sref0) 1 ∧
    stateVal (make_move_heap (make_move_heap heap0 sref0 1).1 sref0 1).1
        (make_move_heap (make_move_heap heap0 sref0 1).1 sref0 1).2 =
      stateVal (make_move_heap heap0 sref0 1).1
        (make_move_heap heap0 sref0 1).2 ∧
    (make_move_heap (make_move_heap heap0 sref0 1).1 sref0 1).2.owned_ref ≠
      (make_move_heap heap0 sref0 1).2.owned_ref :=
  make_move_heap_frame heap0 sref0 1 (by decide)

/-- C9: on the scenario board `{1: A, 2: A, 4: B, 5: B}` with A (= X) to
move, the best-move pool is exactly {3} — in particular it includes the
row-completing cell 3 — and the score of playing 3, i.e. the negated
score of the resulting state (the value from the mover's perspective
that `get_best_moves_rec` groups by), equals 1; the state itself also
scores 1. -/
theorem scenario_best_move_three :
    get_best_moves_rec s9 = some [3] ∧
    -1 * score_state_rec (make_move s9 3) = 1 ∧
    score_state_rec s9 = 1 :=
  ⟨by decide, by decide, by decide⟩

/-- C10: on a terminal state (`get_possible_moves` empty) the
score-to-moves dict stays empty, Python's `max(score_to_move)` raises,
and so `get_best_moves_rec` — and with it `recursive_minimax`, whatever
random index is drawn — produces no value. -/
theorem best_moves_terminal_none (s : TicTacToeState)
    (h : get_possible_moves s = []) :
    get_best_moves_rec s = none ∧
    ∀ idx : Nat, recursive_minimax s idx = none := by
  have hb := get_best_moves_terminal h
  refine ⟨hb, ?_⟩
  intro idx
  unfold recursive_minimax
  rw [hb]

/-- Witness for C10 at the terminal state `s_win`. -/
theorem best_moves_terminal_none_witness :
    get_best_moves_rec s_win = none ∧ recursive_minimax s_win 0 = none :=
  ⟨(best_moves_terminal_none s_win (by decide)).1,
   (best_moves_terminal_none s_win (by decide)).2 0⟩
